import Mathlib

/-!
Verification of the ingestion pipeline of the `master-thesis` repository:
a shallow embedding of `app/chunking.py`, `app/services/progress.py` and
`app/services/indexing.py`, followed by theorems about the claims of the
specification.

Conventions of the embedding:
* Python `str` values that are inspected character by character are
  modelled as `List Char` (`PyStr`); label strings that are only compared
  for equality (phase names, statuses, event names) are Lean `String`s.
* Python `int` counters are `Nat` (all reachable values are nonnegative);
  `int(p * 100 / t)` on nonnegative operands is `Nat` division.
* Wall-clock timestamps (`startedAt`, `finishedAt` in progress phases) are
  elided: no claim mentions them.
* The float comparison `alpha / nonspace < 0.2` of the informativeness
  filter is modelled as the exact rational comparison `alpha * 5 < nonspace`
  (`0.2` rounds to the nearest double, and the quotient of two counts of
  characters of a chunk never falls inside the rounding gap).
-/

abbrev PyStr := List Char

/-- Python `str.isspace` restricted to the ASCII whitespace characters
(space, tab, linefeed, carriage return, vertical tab, form feed). -/
def pyIsSpace (c : Char) : Bool :=
  c = ' ' || c = '\t' || c = '\n' || c = '\r' || c = Char.ofNat 11 || c = Char.ofNat 12

/-- Python `str.strip()`: drop leading and trailing whitespace. -/
def pyStrip (l : PyStr) : PyStr :=
  ((l.dropWhile pyIsSpace).reverse.dropWhile pyIsSpace).reverse

/-- The character class of `_NOISE_ONLY_LINE_RE`:
whitespace or one of the punctuation characters in the class. -/
def noiseChar (c : Char) : Bool :=
  pyIsSpace c || c = Char.ofNat 123 || c = Char.ofNat 125 || c = '[' || c = ']' ||
  c = '(' || c = ')' || c = ';' || c = ',' || c = '<' || c = '>' ||
  c = '/' || c = Char.ofNat 92 || c = ':' || c = Char.ofNat 34 ||
  c = Char.ofNat 39 || c = '-'

/-- `_is_noise_only_line`: the regex `^[...]+$` matches iff the line is
nonempty and every character belongs to the noise class. -/
def is_noise_only_line (line : PyStr) : Bool :=
  !line.isEmpty && line.all noiseChar

/-- First character of a word of `_WORD_LIKE_RE`: `[A-Za-z_]`. -/
def wordStartChar (c : Char) : Bool :=
  c.isAlpha || c = '_'

/-- Continuation character of a word of `_WORD_LIKE_RE`: `[A-Za-z0-9_]`. -/
def wordContChar (c : Char) : Bool :=
  c.isAlpha || c.isDigit || c = '_'

/-- `_WORD_LIKE_RE.search`: some position starts a match of
`[A-Za-z_][A-Za-z0-9_]{2,}` (three characters suffice for a match). -/
def hasWordLike : PyStr → Bool
  | c1 :: c2 :: c3 :: rest =>
      (wordStartChar c1 && wordContChar c2 && wordContChar c3) ||
        hasWordLike (c2 :: c3 :: rest)
  | _ => false

/-- `_is_informative_text` with its default thresholds
(`min_nonspace = 40`, `min_alnum = 20`, `min_alpha_fraction = 0.2`). -/
def is_informative_text (text : PyStr) : Bool :=
  let s := pyStrip text
  if s.isEmpty then false
  else
    let nonspace := s.countP (fun c => !pyIsSpace c)
    if nonspace < 40 then false
    else
      let alnum := s.countP (fun c => c.isAlpha || c.isDigit)
      if alnum < 20 then false
      else
        let alpha := s.countP (fun c => c.isAlpha)
        if 0 < nonspace && alpha * 5 < nonspace then false
        else hasWordLike s

/-- First loop of `_trim_noise_line_edges` (fuel-indexed: `e - s` steps
suffice, each iteration raises `s` by one). -/
def trimFrontFuel (lines : List PyStr) : Nat → Nat → Nat → Nat
  | 0, s, _e => s
  | fuel + 1, s, e =>
      if s < e ∧ is_noise_only_line (lines.getD s []) then
        trimFrontFuel lines fuel (s + 1) e
      else s

/-- First loop of `_trim_noise_line_edges`: advance `s` past leading
noise-only lines of the half-open range `[s, e)`. -/
def trimFront (lines : List PyStr) (s e : Nat) : Nat :=
  trimFrontFuel lines (e - s) s e

/-- Second loop of `_trim_noise_line_edges` (fuel-indexed). -/
def trimBackFuel (lines : List PyStr) : Nat → Nat → Nat → Nat
  | 0, _s, e => e
  | fuel + 1, s, e =>
      if s < e ∧ is_noise_only_line (lines.getD (e - 1) []) then
        trimBackFuel lines fuel s (e - 1)
      else e

/-- Second loop of `_trim_noise_line_edges`: move `e` back past trailing
noise-only lines while `e > s`. -/
def trimBack (lines : List PyStr) (s e : Nat) : Nat :=
  trimBackFuel lines (e - s) s e

/-- `_trim_noise_line_edges`. -/
def trim_noise_line_edges (lines : List PyStr) (startIdx endIdx : Nat) : Nat × Nat :=
  let s := trimFront lines startIdx endIdx
  (s, trimBack lines s endIdx)

/-- `"\n".join(lines)`. -/
def joinNL (lines : List PyStr) : PyStr :=
  List.intercalate ['\n'] lines

/-- A chunk produced by `chunk_source_code`: content plus 1-based inclusive
line numbers. -/
structure Chunk where
  content : PyStr
  start_line : Nat
  end_line : Nat
deriving DecidableEq, Repr

/-- `char_count_between_lines`: character count of the clamped half-open
line range `[s, e)` (each line counts `len + 1`, via the cumulative sums). -/
def char_count_between_lines (lines : List PyStr) (s e : Nat) : Nat :=
  let n := lines.length
  let a := min s n
  let b := max a (min e n)
  (((lines.take b).drop a).map (fun l => l.length + 1)).sum

/-- `build_line_chunk`: trim noise edges, join, strip, filter. -/
def build_line_chunk (lines : List PyStr) (startIdx endIdx : Nat) : Option Chunk :=
  let t := trim_noise_line_edges lines startIdx endIdx
  if t.2 ≤ t.1 then none
  else
    let content := pyStrip (joinNL ((lines.drop t.1).take (t.2 - t.1)))
    if !is_informative_text content then none
    else some ⟨content, t.1 + 1, t.2⟩

/-- Inner `while` of `split_by_window` (fuel-indexed: `e - j` steps
suffice). -/
def growJFuel (lines : List PyStr) (maxChars i e : Nat) : Nat → Nat → Nat
  | 0, j => j
  | fuel + 1, j =>
      if j < e ∧ char_count_between_lines lines i (j + 1) ≤ maxChars then
        growJFuel lines maxChars i e fuel (j + 1)
      else j

/-- Inner `while` of `split_by_window`: greedily grow `j` while the
character count of `[i, j + 1)` stays within `max_chars`. -/
def growJ (lines : List PyStr) (maxChars i e : Nat) (j : Nat) : Nat :=
  growJFuel lines maxChars i e (e - j) j

/-- The fuel-indexed inner `while` never moves `j` backward. -/
theorem growJFuel_ge (lines : List PyStr) (maxChars i e : Nat) :
    ∀ fuel j, j ≤ growJFuel lines maxChars i e fuel j := by
  intro fuel
  induction fuel with
  | zero => intro j; exact Nat.le_refl j
  | succ n ih =>
      intro j
      show (if j < e ∧ char_count_between_lines lines i (j + 1) ≤ maxChars then
        growJFuel lines maxChars i e n (j + 1) else j) ≥ j
      split
      · have := ih (j + 1); omega
      · exact Nat.le_refl j

/-- The inner `while` never moves `j` backward. -/
theorem growJ_ge (lines : List PyStr) (maxChars i e j : Nat) :
    j ≤ growJ lines maxChars i e j :=
  growJFuel_ge lines maxChars i e (e - j) j

/-- Backward-overlap walk of `split_by_window` (fuel-indexed: `back - i`
steps suffice): starting at `j`, step back while `back > i` and the
remaining overlap is positive, subtracting the length (`len + 1`) of each
line passed.  The Python `remaining_overlap` may go negative; the `Nat`
truncation stops the loop at the same point. -/
def backWalkFuel (lineLens : List Nat) (i : Nat) : Nat → Nat → Nat → Nat
  | 0, back, _rem => back
  | fuel + 1, back, rem =>
      if i < back ∧ 0 < rem then
        backWalkFuel lineLens i fuel (back - 1) (rem - lineLens.getD (back - 1) 0)
      else back

/-- The backward-overlap walk of `split_by_window`. -/
def backWalk (lineLens : List Nat) (i : Nat) (back rem : Nat) : Nat :=
  backWalkFuel lineLens i (back - i) back rem

/-- `split_by_window` on the half-open line range `[i, e)` (fuel-indexed:
each iteration advances `i`, so `e - i` steps suffice). -/
def splitFuel (lines : List PyStr) (maxChars overlap e : Nat) : Nat → Nat → List Chunk
  | 0, _i => []
  | fuel + 1, i =>
      if i < e then
        let j0 := growJ lines maxChars i e i
        let j := if j0 = i then i + 1 else j0
        let back := backWalk (lines.map (fun l => l.length + 1)) i j overlap
        let rest := splitFuel lines maxChars overlap e fuel (max back j)
        match build_line_chunk lines i j with
        | some c => c :: rest
        | none => rest
      else []

/-- `split_by_window` on the half-open line range `[i, e)`. -/
def split_by_window (lines : List PyStr) (maxChars overlap : Nat) (i e : Nat) :
    List Chunk :=
  splitFuel lines maxChars overlap e (e - i) i

/-- `_line_start_byte_offsets` helper: offsets contributed by the bytes,
scanning from absolute position `i`. -/
def lsAux : List Nat → Nat → List Nat
  | [], _ => []
  | b :: rest, i => if b = 10 then (i + 1) :: lsAux rest (i + 1) else lsAux rest (i + 1)

/-- `_line_start_byte_offsets`: offset `0` plus one entry after every
linefeed byte (`0x0A`). -/
def line_start_byte_offsets (raw : List Nat) : List Nat :=
  0 :: lsAux raw 0

/-- The loop of Python `bisect.bisect_right` (fuel-indexed: the width
`hi - lo` of the interval bounds the iteration count). -/
def bisectFuel (a : List Nat) (x : Nat) : Nat → Nat → Nat → Nat
  | 0, lo, _hi => lo
  | fuel + 1, lo, hi =>
      if lo < hi then
        if x < a.getD ((lo + hi) / 2) 0 then bisectFuel a x fuel lo ((lo + hi) / 2)
        else bisectFuel a x fuel ((lo + hi) / 2 + 1) hi
      else lo

/-- The loop of Python `bisect.bisect_right`. -/
def bisectLoop (a : List Nat) (x lo hi : Nat) : Nat :=
  bisectFuel a x (hi - lo) lo hi

/-- Python `bisect.bisect_right(a, x)`. -/
def bisect_right (a : List Nat) (x : Nat) : Nat :=
  bisectLoop a x 0 a.length

/-- `_byte_offset_to_line_number`. -/
def byte_offset_to_line_number (byteIndex : Nat) (lineStarts : List Nat) : Nat :=
  bisect_right lineStarts byteIndex

/-- The node-range collection loop of `chunk_source_code`: map each
tree-sitter node's byte span `(start_byte, end_byte)` to a clamped
half-open line-index range, keeping only nonempty ranges.  `max 0` of the
Python source is the `Nat` truncation of `end_byte - 1`. -/
def nodeLineRanges (lineStarts : List Nat) (numLines : Nat)
    (nodes : List (Nat × Nat)) : List (Nat × Nat) :=
  nodes.filterMap (fun sb =>
    let startLine1b := byte_offset_to_line_number sb.1 lineStarts
    let endLine1b := byte_offset_to_line_number (sb.2 - 1) lineStarts
    let startIdx := startLine1b - 1
    let endIdx := min numLines endLine1b
    if startIdx < endIdx then some (startIdx, endIdx) else none)

/-- The greedy merge loop of `chunk_source_code` over the node line
ranges: `(curStart, curEnd)` is the accumulator, the list argument is the
remainder `node_line_ranges[1:]`. -/
def mergeLoop (lines : List PyStr) (maxChars : Nat) :
    Nat × Nat → List (Nat × Nat) → List (Nat × Nat)
  | cur, [] => [cur]
  | cur, se :: rest =>
      let t := trim_noise_line_edges lines cur.1 se.2
      if char_count_between_lines lines t.1 t.2 ≤ maxChars then
        mergeLoop lines maxChars (cur.1, se.2) rest
      else cur :: mergeLoop lines maxChars se rest

/-- The chunk-emission loop of `chunk_source_code` over the merged
ranges: trim, skip empty ranges, build directly when within budget,
otherwise split by windows. -/
def chunksFromMerged (lines : List PyStr) (maxChars overlap : Nat) :
    List (Nat × Nat) → List Chunk
  | [] => []
  | se :: rest =>
      let t := trim_noise_line_edges lines se.1 se.2
      let here :=
        if t.2 ≤ t.1 then []
        else if char_count_between_lines lines t.1 t.2 ≤ maxChars then
          match build_line_chunk lines t.1 t.2 with
          | some c => [c]
          | none => []
        else split_by_window lines maxChars overlap t.1 t.2
      here ++ chunksFromMerged lines maxChars overlap rest

/-- `chunk_source_code`, modelled from `lines = text.splitlines()`
onward.  `parsed = some nodes` supplies the byte spans of
`root.named_children` when a tree-sitter parser exists and parsing
succeeds; `parsed = none` covers a missing parser and the
`except`-branch (both leave `chunks = []` before the fallback).
`lineStarts` stands for `_line_start_byte_offsets(encoded)`. -/
def chunk_source_code_lines (lines : List PyStr) (maxChars overlap : Nat)
    (parsed : Option (List (Nat × Nat))) (lineStarts : List Nat) : List Chunk :=
  let numLines := lines.length
  let tsChunks :=
    match parsed with
    | some nodes =>
        if 0 < numLines then
          match nodeLineRanges lineStarts numLines nodes with
          | [] => []
          | r :: rs => chunksFromMerged lines maxChars overlap
              (mergeLoop lines maxChars r rs)
        else []
    | none => []
  let chunks :=
    if tsChunks.isEmpty then split_by_window lines maxChars overlap 0 numLines
    else tsChunks
  chunks.filter (fun c => !(pyStrip c.content).isEmpty)

/-- The sequence of window ranges `[i, j)` traversed by
`split_by_window` (fuel-indexed), with the same step as the source
(`i` becomes `max(back, j)`). -/
def windowRangesFuel (lines : List PyStr) (maxChars overlap e : Nat) :
    Nat → Nat → List (Nat × Nat)
  | 0, _i => []
  | fuel + 1, i =>
      if i < e then
        let j0 := growJ lines maxChars i e i
        let j := if j0 = i then i + 1 else j0
        (i, j) ::
          windowRangesFuel lines maxChars overlap e fuel
            (max (backWalk (lines.map (fun l => l.length + 1)) i j overlap) j)
      else []

/-- The sequence of window ranges `[i, j)` traversed by
`split_by_window`, with the same step as the source (`i` becomes
`max(back, j)`). -/
def windowRanges (lines : List PyStr) (maxChars overlap : Nat) (i e : Nat) :
    List (Nat × Nat) :=
  windowRangesFuel lines maxChars overlap e (e - i) i

/-! ## Progress broker (`app/services/progress.py`) -/

/-- One entry of a snapshot's `phases` dict.  The initial value for an
unseen phase is `{"status": "queued", "processed": 0, "total": None}`;
the wall-clock `startedAt`/`finishedAt` timestamps are elided.  A `none`
in `total`/`message`/`error` is Python `None` (respectively an absent
`progress` key). -/
structure Phase where
  status : String
  processed : Nat := 0
  total : Option Nat := none
  message : Option String := none
  error : Option String := none
  progress : Option Nat := none
deriving DecidableEq, Repr

/-- The keys merged into the snapshot by `_overall`. -/
structure Overall where
  status : String
  processed : Nat
  total : Option Nat
deriving DecidableEq, Repr

/-- A per-repository snapshot.  `overall = none` models a snapshot on
which `snap.update(self._overall(...))` has never run (`_mk_base`). -/
structure Snap where
  repoId : String
  phases : List (String × Phase)
  overall : Option Overall
deriving DecidableEq, Repr

/-- `dict.get` on a string-keyed dict modelled as an association list. -/
def lookupA {α : Type} (l : List (String × α)) (k : String) : Option α :=
  (l.find? (fun p => p.1 == k)).map (fun p => p.2)

/-- `d[k] = v` on an association list: replace in place or append. -/
def insertA {α : Type} (l : List (String × α)) (k : String) (v : α) :
    List (String × α) :=
  match l with
  | [] => [(k, v)]
  | p :: rest => if p.1 == k then (k, v) :: rest else p :: insertA rest k v

/-- `_mk_base`. -/
def mk_base (repoId : String) : Snap :=
  ⟨repoId, [], none⟩

/-- `phases.get(name) or {}` followed by `.get("status")`. -/
def statusOf (o : Option Phase) : Option String :=
  o.map (fun ph => ph.status)

/-- `.get("processed", 0)`: the key is present on every stored phase. -/
def procOf (o : Option Phase) : Nat :=
  match o with
  | none => 0
  | some ph => ph.processed

/-- `.get("total", 0)`: `0` when the phase is missing, else the stored
value (possibly `None`). -/
def totOf (o : Option Phase) : Option Nat :=
  match o with
  | none => some 0
  | some ph => ph.total

/-- `InMemoryProgressBroker._overall`.  (The local helper `pct` of the
source is dead code: no branch calls it.) -/
def overallOf (phases : List (String × Phase)) : Overall :=
  let up := lookupA phases "upload"
  let emb := lookupA phases "embedding"
  let idx := lookupA phases "indexing"
  if statusOf idx = some "complete" then
    ⟨"indexed", procOf idx, totOf idx⟩
  else if statusOf idx = some "running" ∨ statusOf idx = some "queued" ∨
      statusOf idx = some "error" then
    ⟨if statusOf idx = some "error" then "error" else "indexing", procOf idx, totOf idx⟩
  else if statusOf emb = some "running" ∨ statusOf emb = some "queued" ∨
      statusOf emb = some "complete" ∨ statusOf emb = some "error" then
    ⟨if statusOf emb = some "error" then "error" else "indexing", procOf emb, totOf emb⟩
  else if statusOf up = some "running" ∨ statusOf up = some "queued" then
    ⟨"upload", 0, some 0⟩
  else if statusOf up = some "error" then
    ⟨"error", 0, some 0⟩
  else ⟨"unknown", 0, some 0⟩

/-- The `payload` dict built by `update` and pushed to subscriber queues. -/
structure Payload where
  type : String
  repoId : String
  phase : String
  status : String
  processed : Nat
  total : Option Nat
  progress : Option Nat
  message : Option String
  error : Option String
  event : String
deriving DecidableEq, Repr

/-- An `asyncio.Queue(maxsize=100)` of a subscription. -/
structure Queue where
  maxsize : Nat
  items : List Payload
deriving DecidableEq, Repr

/-- `asyncio.Queue.put_nowait`: raises `QueueFull` (the `error` case)
when the queue is bounded and at capacity, else appends. -/
def put_nowait (q : Queue) (p : Payload) : Except Unit Queue :=
  if 0 < q.maxsize ∧ q.maxsize ≤ q.items.length then Except.error ()
  else Except.ok ⟨q.maxsize, q.items ++ [p]⟩

/-- The `try: q.put_nowait(payload) except: pass` of `update`: a full
queue is left unchanged, nothing propagates. -/
def notifyOne (q : Queue) (p : Payload) : Queue :=
  match put_nowait q p with
  | Except.ok q' => q'
  | Except.error _ => q

/-- The broker state: stored snapshots, subscriber queues (tagged with
their repository id), and whether the single `asyncio.Lock` is held. -/
structure Broker where
  snapshots : List (String × Snap)
  subs : List (String × Queue)
  lockHeld : Bool
deriving DecidableEq, Repr

/-- The body of `InMemoryProgressBroker.update`, run under the lock. -/
def updateBody (rid phase status : String) (processed total : Option Nat)
    (message error : Option String) (st : Broker) : Snap × Broker :=
  let snap := (lookupA st.snapshots rid).getD (mk_base rid)
  let cur0 := (lookupA snap.phases phase).getD { status := "queued" }
  let cur1 := { cur0 with status := status }
  let cur2 := match processed with
    | some p => { cur1 with processed := p }
    | none => cur1
  let cur3 := match total with
    | some t => { cur2 with total := some t }
    | none => cur2
  let cur4 := match message with
    | some m => { cur3 with message := some m }
    | none => cur3
  let cur5 := match error with
    | some e2 => { cur4 with error := some e2 }
    | none => cur4
  let cur := match cur5.total with
    | some t =>
        if 0 < t then
          { cur5 with progress := some (min 100 (cur5.processed * 100 / t)) }
        else cur5
    | none => cur5
  let phases := insertA snap.phases phase cur
  let snap' : Snap :=
    { repoId := snap.repoId, phases := phases, overall := some (overallOf phases) }
  let payload : Payload :=
    { type := "task_update", repoId := rid, phase := phase, status := status
      processed := cur.processed, total := cur.total, progress := cur.progress
      message := message, error := error
      event := if status == "running" then "progress" else status }
  let subs := st.subs.map (fun rq =>
    if rq.1 == rid then (rq.1, notifyOne rq.2 payload) else rq)
  (snap', ⟨insertA st.snapshots rid snap', subs, st.lockHeld⟩)

/-- The payload `update` delivers, as a standalone definition. -/
def payloadOf (rid phase status : String) (processed total : Option Nat)
    (message error : Option String) (st : Broker) : Payload :=
  let snap := (lookupA st.snapshots rid).getD (mk_base rid)
  let cur0 := (lookupA snap.phases phase).getD { status := "queued" }
  let cur1 := { cur0 with status := status }
  let cur2 := match processed with
    | some p => { cur1 with processed := p }
    | none => cur1
  let cur3 := match total with
    | some t => { cur2 with total := some t }
    | none => cur2
  let cur4 := match message with
    | some m => { cur3 with message := some m }
    | none => cur3
  let cur5 := match error with
    | some e2 => { cur4 with error := some e2 }
    | none => cur4
  let cur := match cur5.total with
    | some t =>
        if 0 < t then
          { cur5 with progress := some (min 100 (cur5.processed * 100 / t)) }
        else cur5
    | none => cur5
  { type := "task_update", repoId := rid, phase := phase, status := status
    processed := cur.processed, total := cur.total, progress := cur.progress
    message := message, error := error
    event := if status == "running" then "progress" else status }

/-- `update`: `async with self._lock` blocks (`none`) while the lock is
held, otherwise the body runs and the updated snapshot is returned. -/
def updateOp (rid phase status : String) (processed total : Option Nat)
    (message error : Option String) (st : Broker) : Option (Snap × Broker) :=
  if st.lockHeld then none
  else some (updateBody rid phase status processed total message error st)

/-- `snapshot`: blocks while the lock is held, otherwise returns a deep
copy (a value) of the stored snapshot, or `_mk_base` if none exists. -/
def snapshotOp (rid : String) (st : Broker) : Option Snap :=
  if st.lockHeld then none
  else some ((lookupA st.snapshots rid).getD (mk_base rid))

/-- The first yield of `subscribe`: acquire the (non-reentrant)
`asyncio.Lock`, register a fresh `asyncio.Queue(maxsize=100)`, then
evaluate `await self.snapshot(repo_id)` — with the lock still held. -/
def subscribeFirstYield (rid : String) (st : Broker) : Option Snap :=
  if st.lockHeld then none
  else
    snapshotOp rid
      ⟨st.snapshots, st.subs ++ [(rid, ⟨100, []⟩)], true⟩

/-! ## Ingestion worker (`app/services/indexing.py`)

`index_repo` is modelled from `all_chunks` onward (the gathering loop
reads the filesystem).  The VoyageAI embedder and the pgvector store are
external collaborators: a successful `embedder.run` returns the same
documents (with embeddings attached, which the model does not inspect),
and the failure of the embedding call (resp. of the store
initialisation / `write_documents`) of the batch at `start` is injected
by `embedFail start` (resp. `writeFail start`).  Events are modelled as
the dict arguments handed to `_broadcast`. -/

/-- One element of `all_chunks` (filename plus normalized content). -/
structure WChunk where
  filename : String
  content : PyStr
deriving DecidableEq, Repr

/-- A haystack `Document` as far as the worker inspects it. -/
structure Doc where
  filename : String
  content : PyStr
deriving DecidableEq, Repr

/-- A dict handed to `_broadcast` (absent keys are `none`). -/
structure WEv where
  phase : String
  event : Option String := none
  processed : Option Nat := none
  total : Option Nat := none
  progress : Option Nat := none
  path : Option String := none
  error : Option String := none
  message : Option String := none
deriving DecidableEq, Repr

/-- The document-building loop of a batch: keep chunks whose normalized
(stripped) content is nonempty. -/
def docsOf (batch : List WChunk) : List Doc :=
  batch.filterMap (fun c =>
    let t := pyStrip c.content
    if t.isEmpty then none else some ⟨c.filename, t⟩)

/-- The per-batch `sent_files` bookkeeping: returns the grown set and the
filenames first seen in this batch (`just_indexed`), in document order. -/
def collectNew (sent : List String) : List Doc → List String × List String
  | [] => (sent, [])
  | d :: ds =>
      if d.filename ≠ "" ∧ d.filename ∉ sent then
        let r := collectNew (d.filename :: sent) ds
        (r.1, d.filename :: r.2)
      else collectNew sent ds

/-- Python `<` on strings: lexicographic comparison of code points. -/
def charListLe : List Char → List Char → Bool
  | [], _ => true
  | _ :: _, [] => false
  | a :: as, b :: bs =>
      if a.val < b.val then true
      else if b.val < a.val then false
      else charListLe as bs

/-- Insert into a `≤`-sorted list of strings. -/
def insertSorted (x : String) : List String → List String
  | [] => [x]
  | y :: ys => if charListLe x.toList y.toList then x :: y :: ys else y :: insertSorted x ys

/-- Python `sorted` on a list of strings (insertion sort). -/
def sortStrs : List String → List String
  | [] => []
  | x :: xs => insertSorted x (sortStrs xs)

/-- Mutable worker state across batches (`nonlocal` variables). -/
structure WBState where
  embedDone : Nat := 0
  indexDone : Nat := 0
  lastEmbPct : Option Nat := none
  lastIdxPct : Option Nat := none
  sent : List String := []
deriving DecidableEq, Repr

/-- The events of one iteration of the worker loop, the new state, and
the exception message if one was raised.  A batch whose `docs` list is
empty is skipped (`continue`) before any collaborator call. -/
def processBatch (total : Nat) (embedFail writeFail : Nat → Option String)
    (start : Nat) (batch : List WChunk) (st : WBState) :
    List WEv × WBState × Option String :=
  let docs := docsOf batch
  if docs.isEmpty then ([], st, none)
  else
    match embedFail start with
    | some m => ([], st, some m)
    | none =>
      let embedDone := st.embedDone + docs.length
      let embPct := embedDone * 100 / max 1 total
      let embEvts : List WEv :=
        if st.lastEmbPct = some embPct then []
        else [{ phase := "embedding", event := some "progress",
                processed := some embedDone, total := some total,
                progress := some embPct }]
      let lastEmb := if st.lastEmbPct = some embPct then st.lastEmbPct else some embPct
      match writeFail start with
      | some m =>
          (embEvts,
           { st with embedDone := embedDone, lastEmbPct := lastEmb }, some m)
      | none =>
        let r := collectNew st.sent docs
        let fileEvts : List WEv := (sortStrs r.2).map (fun rel =>
          { phase := "indexing", event := some "file_indexed", path := some rel })
        let indexDone := st.indexDone + docs.length
        let idxPct := indexDone * 100 / max 1 total
        let idxEvts : List WEv :=
          if st.lastIdxPct = some idxPct then []
          else [{ phase := "indexing", event := some "progress",
                  processed := some indexDone, total := some total,
                  progress := some idxPct }]
        let lastIdx := if st.lastIdxPct = some idxPct then st.lastIdxPct else some idxPct
        (embEvts ++ fileEvts ++ idxEvts,
         ⟨embedDone, indexDone, lastEmb, lastIdx, r.1⟩, none)

/-- The worker loop over the batches: events in emission order, final
state, processed batch starts (batches that reached the collaborator
calls), and the exception, which aborts the loop. -/
def runBatches (total : Nat) (embedFail writeFail : Nat → Option String) :
    List (Nat × List WChunk) → WBState →
    List WEv × WBState × List Nat × Option String
  | [], st => ([], st, [], none)
  | (start, batch) :: rest, st =>
      let r := processBatch total embedFail writeFail start batch st
      let procdHere : List Nat := if (docsOf batch).isEmpty then [] else [start]
      match r.2.2 with
      | some m => (r.1, r.2.1, procdHere, some m)
      | none =>
          let rec2 := runBatches total embedFail writeFail rest r.2.1
          (r.1 ++ rec2.1, rec2.2.1, procdHere ++ rec2.2.2.1, rec2.2.2.2)

/-- `range(0, total, batchSize)` for a positive step. -/
def batchStarts (total batchSize : Nat) : List Nat :=
  (List.range ((total + batchSize - 1) / batchSize)).map (fun k => k * batchSize)

/-- The batches `all_chunks[start : start + batch_size]` with their
start offsets. -/
def batchesOf (chunks : List WChunk) (batchSize : Nat) : List (Nat × List WChunk) :=
  (batchStarts chunks.length batchSize).map (fun s => (s, (chunks.drop s).take batchSize))

/-- `index_repo` from `total_chunks = len(all_chunks)` onward: the full
event trace, the processed batch starts, and the fatal error if any. -/
def index_repo_run (chunks : List WChunk) (batchSize : Nat)
    (embedFail writeFail : Nat → Option String) :
    List WEv × List Nat × Option String :=
  let total := chunks.length
  if total = 0 then
    ([{ phase := "embedding", event := some "complete", processed := some 0,
        total := some 0, progress := some 100 },
      { phase := "indexing", event := some "complete", processed := some 0,
        total := some 0, progress := some 100 },
      { phase := "indexed", progress := some 100 }], [], none)
  else
    let r := runBatches total embedFail writeFail (batchesOf chunks batchSize) {}
    let tail : List WEv :=
      match r.2.2.2 with
      | none =>
          [{ phase := "embedding", event := some "complete", processed := some total,
             total := some total, progress := some 100 },
           { phase := "indexing", event := some "complete", processed := some total,
             total := some total, progress := some 100 },
           { phase := "indexed", progress := some 100 }]
      | some m =>
          [{ phase := "embedding", event := some "error", error := some m },
           { phase := "indexing", event := some "error", error := some m },
           { phase := "error", message := some m }]
    ([{ phase := "embedding", event := some "start", processed := some 0,
        total := some total, progress := some 0 },
      { phase := "indexing", event := some "start", processed := some 0,
        total := some total, progress := some 0 }] ++ r.1 ++ tail,
     r.2.2.1, r.2.2.2)

/-! ## Claims about the broker -/

/-- C1 counterexample: on a fresh broker, `snapshot` of a repository with
no recorded update returns `_mk_base`, whose `phases` map is empty — it
does not contain `upload`, `embedding` or `indexing` entries with status
`"queued"` as the claim states. -/
theorem c1_fresh_snapshot_counterexample :
    snapshotOp "r" ⟨[], [], false⟩ = some (mk_base "r") ∧
    (mk_base "r").phases = [] ∧
    lookupA (mk_base "r").phases "upload" = none ∧
    lookupA (mk_base "r").phases "embedding" = none ∧
    lookupA (mk_base "r").phases "indexing" = none := by
  decide

/-- C1 amended: for every repository id with no recorded update, the
`snapshot` operation (with the lock free) returns the base snapshot
`{"repoId": rid, "phases": {}}` — an empty phases map with no phase
entries at all. -/
theorem c1_fresh_snapshot_is_base (rid : String) (st : Broker)
    (hlock : st.lockHeld = false) (hnone : lookupA st.snapshots rid = none) :
    snapshotOp rid st = some ⟨rid, [], none⟩ := by
  unfold snapshotOp
  rw [hlock, hnone]
  rfl

/-- C1 witness: the amended claim at a concrete fresh broker. -/
theorem c1_fresh_snapshot_is_base_witness :
    snapshotOp "r" ⟨[], [], false⟩ = some ⟨"r", [], none⟩ :=
  c1_fresh_snapshot_is_base "r" ⟨[], [], false⟩ rfl rfl

/-- C3: with the lock free, `snapshot` alone succeeds, but the first
yield of `subscribe` never happens: `subscribe` holds the non-reentrant
`asyncio.Lock` while it awaits `self.snapshot(repo_id)`, which tries to
acquire the same lock, so the generator blocks before producing the
initial snapshot. -/
theorem c3_subscribe_first_yield_blocks (rid : String) (st : Broker)
    (hlock : st.lockHeld = false) :
    (snapshotOp rid st).isSome = true ∧ subscribeFirstYield rid st = none := by
  constructor
  · unfold snapshotOp
    rw [hlock]
    rfl
  · unfold subscribeFirstYield snapshotOp
    rw [hlock]
    rfl

/-- C3 witness: on a concrete fresh broker the snapshot operation
succeeds while the first yield of `subscribe` blocks. -/
theorem c3_subscribe_first_yield_blocks_witness :
    (snapshotOp "r" ⟨[], [], false⟩).isSome = true ∧
    subscribeFirstYield "r" ⟨[], [], false⟩ = none :=
  c3_subscribe_first_yield_blocks "r" ⟨[], [], false⟩ rfl

/-- Assigning a key then reading it back on an association list. -/
theorem lookupA_insertA {α : Type} (l : List (String × α)) (k : String) (v : α) :
    lookupA (insertA l k v) k = some v := by
  induction l with
  | nil => simp [insertA, lookupA]
  | cons p rest ih =>
      by_cases h : p.1 == k
      · simp [insertA, h, lookupA]
      · simp only [insertA, h, if_false, Bool.false_eq_true]
        simpa [lookupA, h] using ih

/-- A full bounded queue drops the payload without raising. -/
theorem notifyOne_full (q : Queue) (p : Payload)
    (h : 0 < q.maxsize ∧ q.maxsize ≤ q.items.length) : notifyOne q p = q := by
  simp [notifyOne, put_nowait, h]

/-- A queue with room receives the payload at the back. -/
theorem notifyOne_notFull (q : Queue) (p : Payload)
    (h : ¬(0 < q.maxsize ∧ q.maxsize ≤ q.items.length)) :
    notifyOne q p = ⟨q.maxsize, q.items ++ [p]⟩ := by
  simp [notifyOne, put_nowait, h]

/-- C9: with the lock free, `update` always returns (`some`): delivering
the payload neither raises nor blocks; the updated snapshot is stored and
returned; every subscriber of another repository is untouched; a
subscriber of this repository whose bounded queue is full keeps its queue
unchanged (the payload is dropped), and one with room receives the
payload at the back of its queue. -/
theorem c9_update_nonblocking (rid phase status : String)
    (processed total : Option Nat) (message err : Option String) (st : Broker)
    (hlock : st.lockHeld = false) :
    ∃ snap st',
      updateOp rid phase status processed total message err st = some (snap, st') ∧
      lookupA st'.snapshots rid = some snap ∧
      st'.subs.length = st.subs.length ∧
      ∀ rq ∈ st.subs,
        (rq.1 ≠ rid → rq ∈ st'.subs) ∧
        (rq.1 = rid →
          (0 < rq.2.maxsize ∧ rq.2.maxsize ≤ rq.2.items.length → rq ∈ st'.subs) ∧
          (¬(0 < rq.2.maxsize ∧ rq.2.maxsize ≤ rq.2.items.length) →
            (rq.1, Queue.mk rq.2.maxsize (rq.2.items ++
              [payloadOf rid phase status processed total message err st])) ∈
              st'.subs)) := by
  refine ⟨(updateBody rid phase status processed total message err st).1,
    (updateBody rid phase status processed total message err st).2, ?_, ?_, ?_, ?_⟩
  · simp [updateOp, hlock]
  · exact lookupA_insertA _ _ _
  · simp [updateBody]
  · intro rq hrq
    have hmem :
        (if rq.1 == rid then
            (rq.1, notifyOne rq.2
              (payloadOf rid phase status processed total message err st))
          else rq) ∈
          (updateBody rid phase status processed total message err st).2.subs := by
      exact List.mem_map_of_mem _ hrq
    refine ⟨?_, ?_⟩
    · intro hne
      have : (rq.1 == rid) = false := beq_eq_false_iff_ne.mpr hne
      rw [this] at hmem
      simpa using hmem
    · intro heq
      have hbeq : (rq.1 == rid) = true := beq_iff_eq.mpr heq
      rw [hbeq] at hmem
      simp only [if_true] at hmem
      refine ⟨?_, ?_⟩
      · intro hfull
        rw [notifyOne_full rq.2 _ hfull] at hmem
        simpa using hmem
      · intro hfree
        rw [notifyOne_notFull rq.2 _ hfree] at hmem
        exact hmem

/-- A payload used by the C9 witness. -/
def pay0 : Payload :=
  ⟨"task_update", "r", "upload", "queued", 0, none, none, none, none, "queued"⟩

/-- A concrete broker for the C9 witness: one full bounded queue and one
queue with room, both subscribed to `"r"`, lock free. -/
def brokerW : Broker :=
  ⟨[], [("r", ⟨100, List.replicate 100 pay0⟩), ("r", ⟨100, []⟩), ("other", ⟨100, []⟩)], false⟩

/-- C9 witness: the theorem applied at the concrete broker. -/
theorem c9_update_nonblocking_witness :
    ∃ snap st',
      updateOp "r" "upload" "running" (some 1) (some 2) none none brokerW =
        some (snap, st') ∧
      lookupA st'.snapshots "r" = some snap ∧
      st'.subs.length = brokerW.subs.length ∧
      ∀ rq ∈ brokerW.subs,
        (rq.1 ≠ "r" → rq ∈ st'.subs) ∧
        (rq.1 = "r" →
          (0 < rq.2.maxsize ∧ rq.2.maxsize ≤ rq.2.items.length → rq ∈ st'.subs) ∧
          (¬(0 < rq.2.maxsize ∧ rq.2.maxsize ≤ rq.2.items.length) →
            (rq.1, Queue.mk rq.2.maxsize (rq.2.items ++
              [payloadOf "r" "upload" "running" (some 1) (some 2) none none brokerW])) ∈
              st'.subs)) :=
  c9_update_nonblocking "r" "upload" "running" (some 1) (some 2) none none brokerW rfl

/-! ## Claims about the line index (`_line_start_byte_offsets`,
`_byte_offset_to_line_number`) -/

/-- An in-bounds `getD` is a member of the list. -/
theorem getD_mem_of_lt (l : List Nat) : ∀ k, k < l.length → l.getD k 0 ∈ l := by
  induction l with
  | nil => intro k h; simp at h
  | cons a t ih =>
      intro k h
      cases k with
      | zero => simp
      | succ m =>
          simp only [List.getD_cons_succ]
          exact List.mem_cons_of_mem _ (ih m (by simpa using h))

/-- A `<`-pairwise list is monotone under positional access. -/
theorem pairwise_lt_getD_mono (a : List Nat) (hp : List.Pairwise (· < ·) a) :
    ∀ i j, i ≤ j → j < a.length → a.getD i 0 ≤ a.getD j 0 := by
  induction a with
  | nil => intro i j _ hj; simp at hj
  | cons x t ih =>
      intro i j hij hj
      rcases List.pairwise_cons.mp hp with ⟨hx, ht⟩
      cases i with
      | zero =>
          cases j with
          | zero => exact Nat.le_refl _
          | succ m =>
              simp only [List.getD_cons_zero, List.getD_cons_succ]
              exact Nat.le_of_lt (hx _ (getD_mem_of_lt t m (by simpa using hj)))
      | succ n =>
          cases j with
          | zero => omega
          | succ m =>
              simp only [List.getD_cons_succ]
              exact ih ht n m (by omega) (by simpa using hj)

/-- Every offset contributed by `lsAux` starting at position `i` exceeds
`i`. -/
theorem lsAux_gt (raw : List Nat) : ∀ i y, y ∈ lsAux raw i → i < y := by
  induction raw with
  | nil => intro i y h; simp [lsAux] at h
  | cons b rest ih =>
      intro i y h
      by_cases hb : b = 10
      · simp only [lsAux, if_pos hb, List.mem_cons] at h
        rcases h with h | h
        · omega
        · have := ih (i + 1) y h; omega
      · simp only [lsAux, if_neg hb] at h
        have := ih (i + 1) y h; omega

/-- The offsets contributed by `lsAux` are strictly increasing. -/
theorem lsAux_pairwise (raw : List Nat) :
    ∀ i, List.Pairwise (· < ·) (lsAux raw i) := by
  induction raw with
  | nil => intro i; simp [lsAux]
  | cons b rest ih =>
      intro i
      by_cases hb : b = 10
      · simp only [lsAux, if_pos hb]
        exact List.pairwise_cons.mpr ⟨fun y hy => lsAux_gt rest (i + 1) y hy, ih (i + 1)⟩
      · simpa [lsAux, hb] using ih (i + 1)

/-- The line-start offsets are strictly increasing (`0` first). -/
theorem line_start_byte_offsets_pairwise (raw : List Nat) :
    List.Pairwise (· < ·) (line_start_byte_offsets raw) :=
  List.pairwise_cons.mpr ⟨fun y hy => lsAux_gt raw 0 y hy, lsAux_pairwise raw 0⟩

/-- Specification of the `bisect_right` loop on a monotone list: the
result splits the positions into a prefix of elements `≤ x` and a suffix
of elements `> x`. -/
theorem bisectFuel_spec (a : List Nat) (x : Nat)
    (mono : ∀ i j, i ≤ j → j < a.length → a.getD i 0 ≤ a.getD j 0) :
    ∀ fuel lo hi, hi - lo ≤ fuel → lo ≤ hi → hi ≤ a.length →
      (∀ i, i < lo → a.getD i 0 ≤ x) →
      (∀ i, hi ≤ i → i < a.length → x < a.getD i 0) →
      bisectFuel a x fuel lo hi ≤ a.length ∧
      (∀ i, i < bisectFuel a x fuel lo hi → a.getD i 0 ≤ x) ∧
      (∀ i, bisectFuel a x fuel lo hi ≤ i → i < a.length → x < a.getD i 0) := by
  intro fuel
  induction fuel with
  | zero =>
      intro lo hi hfuel hle hhi hbef haft
      have heq : lo = hi := by omega
      exact ⟨by simpa [bisectFuel] using by omega,
        fun i h1 => hbef i (by simpa [bisectFuel] using h1),
        fun i h1 h2 => haft i (by rw [heq] at h1; simpa [bisectFuel] using h1) h2⟩
  | succ n ih =>
      intro lo hi hfuel hle hhi hbef haft
      have hunf : bisectFuel a x (n + 1) lo hi =
          if lo < hi then
            if x < a.getD ((lo + hi) / 2) 0 then bisectFuel a x n lo ((lo + hi) / 2)
            else bisectFuel a x n ((lo + hi) / 2 + 1) hi
          else lo := rfl
      rw [hunf]
      by_cases hlt : lo < hi
      · rw [if_pos hlt]
        by_cases hx : x < a.getD ((lo + hi) / 2) 0
        · rw [if_pos hx]
          exact ih lo ((lo + hi) / 2) (by omega) (by omega) (by omega) hbef
            (fun i h1 h2 => Nat.lt_of_lt_of_le hx (mono ((lo + hi) / 2) i h1 h2))
        · rw [if_neg hx]
          exact ih ((lo + hi) / 2 + 1) hi (by omega) (by omega) hhi
            (fun i h1 => Nat.le_trans
              (mono i ((lo + hi) / 2) (by omega) (by omega)) (Nat.le_of_not_lt hx))
            haft
      · rw [if_neg hlt]
        exact ⟨by omega, fun i h1 => hbef i h1, fun i h1 h2 => haft i (by omega) h2⟩

/-- Counting elements of a list whose positions split into a satisfying
prefix of length `r` and a failing suffix yields `r`. -/
theorem countP_split (p : Nat → Bool) :
    ∀ (l : List Nat) (r : Nat), r ≤ l.length →
      (∀ i, i < r → p (l.getD i 0) = true) →
      (∀ i, r ≤ i → i < l.length → p (l.getD i 0) = false) →
      l.countP p = r := by
  intro l
  induction l with
  | nil =>
      intro r hr _ _
      simp only [List.length_nil] at hr
      simp [List.countP_nil]
      omega
  | cons hd tl ih =>
      intro r hr hbef haft
      cases r with
      | zero =>
          have h0 : p hd = false := by simpa using haft 0 (Nat.le_refl 0) (by simp)
          have htl : tl.countP p = 0 :=
            ih 0 (by omega) (by intro i h1; omega)
              (fun i h1 h2 =>
                by simpa [List.getD_cons_succ] using haft (i + 1) (by omega) (by simpa using h2))
          simp [List.countP_cons, htl, h0]
      | succ sr =>
          have hh : p hd = true := by simpa using hbef 0 (by omega)
          have htl : tl.countP p = sr :=
            ih sr (by simpa using hr)
              (fun i h1 =>
                by simpa [List.getD_cons_succ] using hbef (i + 1) (by omega))
              (fun i h1 h2 =>
                by simpa [List.getD_cons_succ] using haft (i + 1) (by omega) (by simpa using h2))
          simp [List.countP_cons, htl, hh]

/-- C4 counterexample: for the offsets built from an empty byte string
(`[0]`) and byte offset `0`, `lineOf` returns `1`, while the claimed
`1 + count of offsets ≤ 0` is `2`. -/
theorem c4_lineOf_counterexample :
    byte_offset_to_line_number 0 (line_start_byte_offsets []) = 1 ∧
    1 + (line_start_byte_offsets []).countP (fun s => s ≤ 0) = 2 := by
  decide

/-- C4 amended: for every byte string and every byte offset, `lineOf`
returns exactly the count of line-start offsets that are `≤` the offset
(the right insertion point), not `1 +` that count. -/
theorem c4_lineOf_eq_count (raw : List Nat) (x : Nat) :
    byte_offset_to_line_number x (line_start_byte_offsets raw) =
      (line_start_byte_offsets raw).countP (fun s => s ≤ x) := by
  have mono := pairwise_lt_getD_mono _ (line_start_byte_offsets_pairwise raw)
  have hspec := bisectFuel_spec (line_start_byte_offsets raw) x mono
    ((line_start_byte_offsets raw).length - 0) 0 (line_start_byte_offsets raw).length
    (Nat.le_refl _) (by omega) (Nat.le_refl _)
    (by intro i h; omega) (by intro i h1 h2; omega)
  rcases hspec with ⟨hlen, hbef, haft⟩
  exact (countP_split _ _ _ hlen
    (fun i h1 => by simpa using hbef i h1)
    (fun i h1 h2 => by
      have := haft i h1 h2
      simpa using Nat.not_le.mpr this)).symm

/-! ## Claims about the windowed splitting (`split_by_window`) -/

/-- The fuel-indexed inner `while` never grows `j` beyond `e`. -/
theorem growJFuel_le (lines : List PyStr) (maxChars i e : Nat) :
    ∀ fuel j, j ≤ e → growJFuel lines maxChars i e fuel j ≤ e := by
  intro fuel
  induction fuel with
  | zero => intro j h; exact h
  | succ n ih =>
      intro j h
      show (if j < e ∧ char_count_between_lines lines i (j + 1) ≤ maxChars then
        growJFuel lines maxChars i e n (j + 1) else j) ≤ e
      split
      case isTrue hc => exact ih (j + 1) (by omega)
      case isFalse hc => exact h

/-- The inner `while` never grows `j` beyond `e`. -/
theorem growJ_le (lines : List PyStr) (maxChars i e j : Nat) (h : j ≤ e) :
    growJ lines maxChars i e j ≤ e :=
  growJFuel_le lines maxChars i e (e - j) j h

/-- The backward-overlap walk never moves forward. -/
theorem backWalkFuel_le (lineLens : List Nat) (i : Nat) :
    ∀ fuel back rem, backWalkFuel lineLens i fuel back rem ≤ back := by
  intro fuel
  induction fuel with
  | zero => intro back rem; exact Nat.le_refl back
  | succ n ih =>
      intro back rem
      show (if i < back ∧ 0 < rem then
        backWalkFuel lineLens i n (back - 1) (rem - lineLens.getD (back - 1) 0)
        else back) ≤ back
      split
      case isTrue hc =>
        exact Nat.le_trans (ih (back - 1) (rem - lineLens.getD (back - 1) 0)) (by omega)
      case isFalse hc => exact Nat.le_refl back

/-- The backward-overlap walk never moves forward. -/
theorem backWalk_le (lineLens : List Nat) (i back rem : Nat) :
    backWalk lineLens i back rem ≤ back :=
  backWalkFuel_le lineLens i (back - i) back rem

/-- The start index the window loop advances to: the window end `j`
(after the forced one-line progress). -/
def windowStep (lines : List PyStr) (maxChars i e : Nat) : Nat :=
  if growJ lines maxChars i e i = i then i + 1 else growJ lines maxChars i e i

/-- The window step strictly advances. -/
theorem windowStep_gt (lines : List PyStr) (maxChars i e : Nat) :
    i < windowStep lines maxChars i e := by
  unfold windowStep
  have := growJ_ge lines maxChars i e i
  split
  · omega
  · omega

/-- The window step stays within the range. -/
theorem windowStep_le (lines : List PyStr) (maxChars i e : Nat) (hlt : i < e) :
    windowStep lines maxChars i e ≤ e := by
  unfold windowStep
  have := growJ_le lines maxChars i e i (by omega)
  split
  · omega
  · omega

/-- One iteration of the window loop: because the backward position
`back` never exceeds `j`, the source's `i = max(back, j)` advances the
start index to exactly `j`. -/
theorem windowRangesFuel_step (lines : List PyStr) (maxChars overlap e n i : Nat)
    (hlt : i < e) :
    windowRangesFuel lines maxChars overlap e (n + 1) i =
      (i, windowStep lines maxChars i e) ::
        windowRangesFuel lines maxChars overlap e n (windowStep lines maxChars i e) := by
  have hb : backWalk (lines.map (fun l => l.length + 1)) i
      (windowStep lines maxChars i e) overlap ≤ windowStep lines maxChars i e :=
    backWalk_le _ _ _ _
  show (if i < e then _ else _) = _
  rw [if_pos hlt]
  have hmax : max (backWalk (lines.map (fun l => l.length + 1)) i
      (windowStep lines maxChars i e) overlap) (windowStep lines maxChars i e) =
      windowStep lines maxChars i e := Nat.max_eq_right hb
  simp only [windowStep] at hmax ⊢
  rw [hmax]

/-- One iteration of `split_by_window`'s loop. -/
theorem splitFuel_step (lines : List PyStr) (maxChars overlap e n i : Nat)
    (hlt : i < e) :
    splitFuel lines maxChars overlap e (n + 1) i =
      (match build_line_chunk lines i (windowStep lines maxChars i e) with
       | some c => c :: splitFuel lines maxChars overlap e n (windowStep lines maxChars i e)
       | none => splitFuel lines maxChars overlap e n (windowStep lines maxChars i e)) := by
  have hb : backWalk (lines.map (fun l => l.length + 1)) i
      (windowStep lines maxChars i e) overlap ≤ windowStep lines maxChars i e :=
    backWalk_le _ _ _ _
  show (if i < e then _ else _) = _
  rw [if_pos hlt]
  have hmax : max (backWalk (lines.map (fun l => l.length + 1)) i
      (windowStep lines maxChars i e) overlap) (windowStep lines maxChars i e) =
      windowStep lines maxChars i e := Nat.max_eq_right hb
  simp only [windowStep] at hmax ⊢
  rw [hmax]

/-- The chunks of `split_by_window` are exactly `build_line_chunk`
applied to the traversed window ranges. -/
theorem splitFuel_eq_windows (lines : List PyStr) (maxChars overlap e : Nat) :
    ∀ fuel i, splitFuel lines maxChars overlap e fuel i =
      (windowRangesFuel lines maxChars overlap e fuel i).filterMap
        (fun w => build_line_chunk lines w.1 w.2) := by
  intro fuel
  induction fuel with
  | zero => intro i; rfl
  | succ n ih =>
      intro i
      by_cases hlt : i < e
      · rw [splitFuel_step lines maxChars overlap e n i hlt,
          windowRangesFuel_step lines maxChars overlap e n i hlt,
          List.filterMap_cons]
        cases build_line_chunk lines i (windowStep lines maxChars i e) with
        | none => exact ih _
        | some c => rw [ih]
      · show (if i < e then _ else _) = List.filterMap _ (if i < e then _ else _)
        rw [if_neg hlt, if_neg hlt]
        rfl

/-- Invariants of the traversed windows: the head window starts at `i`,
every window is nonempty, starts no earlier than `i` and ends by `e`,
each consecutive pair is adjacent (the next start is the previous end,
so every step advances by at least one line), and the windows cover the
whole range. -/
theorem windowRangesFuel_spec (lines : List PyStr) (maxChars overlap e : Nat) :
    ∀ fuel i, e - i ≤ fuel →
      (∀ w, (windowRangesFuel lines maxChars overlap e fuel i).head? = some w →
        w.1 = i) ∧
      (∀ w ∈ windowRangesFuel lines maxChars overlap e fuel i,
        i ≤ w.1 ∧ w.1 < w.2 ∧ w.2 ≤ e) ∧
      (∀ k, i ≤ k → k < e →
        ∃ w ∈ windowRangesFuel lines maxChars overlap e fuel i, w.1 ≤ k ∧ k < w.2) ∧
      List.Chain' (fun a b => b.1 = a.2)
        (windowRangesFuel lines maxChars overlap e fuel i) := by
  intro fuel
  induction fuel with
  | zero =>
      intro i hfuel
      refine ⟨by simp [windowRangesFuel], by simp [windowRangesFuel], ?_,
        by simp [windowRangesFuel]⟩
      intro k h1 h2
      omega
  | succ n ih =>
      intro i hfuel
      by_cases hlt : i < e
      · have hstep := windowRangesFuel_step lines maxChars overlap e n i hlt
        have hgt := windowStep_gt lines maxChars i e
        have hle := windowStep_le lines maxChars i e hlt
        rcases ih (windowStep lines maxChars i e) (by omega) with
          ⟨ihhead, ihmem, ihcov, ihchain⟩
        rw [hstep]
        refine ⟨?_, ?_, ?_, ?_⟩
        · intro w hw
          simp only [List.head?_cons, Option.some.injEq] at hw
          rw [← hw]
        · intro w hw
          rcases List.mem_cons.mp hw with hw | hw
          · rw [hw]; exact ⟨Nat.le_refl i, hgt, hle⟩
          · have := ihmem w hw
            omega
        · intro k h1 h2
          by_cases hk : k < windowStep lines maxChars i e
          · exact ⟨(i, windowStep lines maxChars i e), List.mem_cons_self _ _,
              h1, hk⟩
          · rcases ihcov k (by omega) h2 with ⟨w, hw, hw1, hw2⟩
            exact ⟨w, List.mem_cons_of_mem _ hw, hw1, hw2⟩
        · refine List.chain'_cons'.mpr ⟨?_, ihchain⟩
          intro y hy
          exact ihhead y hy
      · refine ⟨?_, ?_, ?_, ?_⟩ <;>
          simp only [windowRangesFuel, if_neg hlt]
        · intro w hw; simp at hw
        · intro w hw; simp at hw
        · intro k h1 h2; omega
        · simp

/-- C7: for `maxChars ≥ 1` and a nonempty line range `[s, e)`, the window
loop of `split_by_window` terminates (the window list is reached with
`e - s` iterations of fuel), every window is nonempty and inside the
range, consecutive windows are adjacent — so each step advances the start
index by at least one line — the windows cover the whole range, and the
emitted chunks are exactly `build_line_chunk` over those windows. -/
theorem c7_window_split_progress_and_cover (lines : List PyStr)
    (maxChars overlap s e : Nat) (_hmax : 1 ≤ maxChars) (_hne : s < e) :
    (∀ k, s ≤ k → k < e →
      ∃ w ∈ windowRanges lines maxChars overlap s e, w.1 ≤ k ∧ k < w.2) ∧
    (∀ w ∈ windowRanges lines maxChars overlap s e, w.1 < w.2 ∧ w.2 ≤ e) ∧
    List.Chain' (fun a b => b.1 = a.2) (windowRanges lines maxChars overlap s e) ∧
    split_by_window lines maxChars overlap s e =
      (windowRanges lines maxChars overlap s e).filterMap
        (fun w => build_line_chunk lines w.1 w.2) := by
  rcases windowRangesFuel_spec lines maxChars overlap e (e - s) s (Nat.le_refl _) with
    ⟨_, hmem, hcov, hchain⟩
  exact ⟨hcov, fun w hw => (hmem w hw).2, hchain,
    splitFuel_eq_windows lines maxChars overlap e (e - s) s⟩

/-- C7 witness: the theorem at a concrete range. -/
theorem c7_window_split_progress_and_cover_witness :
    (∀ k, 0 ≤ k → k < 3 →
      ∃ w ∈ windowRanges ["aaaa".toList, "bbbb".toList, "cccc".toList] 5 3 0 3,
        w.1 ≤ k ∧ k < w.2) ∧
    (∀ w ∈ windowRanges ["aaaa".toList, "bbbb".toList, "cccc".toList] 5 3 0 3,
      w.1 < w.2 ∧ w.2 ≤ 3) ∧
    List.Chain' (fun a b => b.1 = a.2)
      (windowRanges ["aaaa".toList, "bbbb".toList, "cccc".toList] 5 3 0 3) ∧
    split_by_window ["aaaa".toList, "bbbb".toList, "cccc".toList] 5 3 0 3 =
      (windowRanges ["aaaa".toList, "bbbb".toList, "cccc".toList] 5 3 0 3).filterMap
        (fun w => build_line_chunk ["aaaa".toList, "bbbb".toList, "cccc".toList] w.1 w.2) :=
  c7_window_split_progress_and_cover _ 5 3 0 3 (by decide) (by decide)

/-- C2, evaluated at the failing input (three 4-character lines,
`max_chars = 5`, `overlap = 3`): the backward walk from the first window
end `j = 1` reaches position `0 < 1`, yet the source's
`i = max(back, j)` makes the second window start at `1 = j` — the
overlap is never applied, contradicting the spec's walk-backward rule
(under which the next window would start at `0`). -/
theorem c2_overlap_is_discarded :
    backWalk [5, 5, 5] 0 1 3 = 0 ∧
    windowRanges ["aaaa".toList, "bbbb".toList, "cccc".toList] 5 3 0 3 =
      [(0, 1), (1, 2), (2, 3)] := by
  decide

/-! ## Claims about `chunk_source_code` -/

/-- The leading-noise trim never moves `s` backward. -/
theorem trimFrontFuel_ge (lines : List PyStr) :
    ∀ fuel s e, s ≤ trimFrontFuel lines fuel s e := by
  intro fuel
  induction fuel with
  | zero => intro s e; exact Nat.le_refl s
  | succ n ih =>
      intro s e
      show s ≤ (if s < e ∧ is_noise_only_line (lines.getD s []) then
        trimFrontFuel lines n (s + 1) e else s)
      split
      · exact Nat.le_trans (by omega) (ih (s + 1) e)
      · exact Nat.le_refl s

/-- The trailing-noise trim never moves `e` forward. -/
theorem trimBackFuel_le (lines : List PyStr) :
    ∀ fuel s e, trimBackFuel lines fuel s e ≤ e := by
  intro fuel
  induction fuel with
  | zero => intro s e; exact Nat.le_refl e
  | succ n ih =>
      intro s e
      show (if s < e ∧ is_noise_only_line (lines.getD (e - 1) []) then
        trimBackFuel lines n s (e - 1) else e) ≤ e
      split
      · exact Nat.le_trans (ih s (e - 1)) (by omega)
      · exact Nat.le_refl e

/-- The first component of the trimmed range is `trimFront`. -/
theorem trim_noise_fst (lines : List PyStr) (s e : Nat) :
    (trim_noise_line_edges lines s e).1 = trimFront lines s e := rfl

/-- The second component of the trimmed range is `trimBack` from the
already-trimmed front. -/
theorem trim_noise_snd (lines : List PyStr) (s e : Nat) :
    (trim_noise_line_edges lines s e).2 = trimBack lines (trimFront lines s e) e := rfl

/-- The empty content is never informative. -/
theorem informative_nil : is_informative_text [] = false := by decide

/-- The output invariant of the chunker, as the spec states it: the
content passes the informativeness filter, the 1-based line range is
within the file, the content is the stripped join of exactly those lines,
and it is nonempty. -/
def ChunkInv (lines : List PyStr) (c : Chunk) : Prop :=
  is_informative_text c.content = true ∧
  1 ≤ c.start_line ∧ c.start_line ≤ c.end_line ∧ c.end_line ≤ lines.length ∧
  c.content = pyStrip (joinNL
    ((lines.drop (c.start_line - 1)).take (c.end_line - (c.start_line - 1)))) ∧
  c.content ≠ []

/-- Every chunk `build_line_chunk` emits from a range ending by
`lines.length` satisfies the output invariant. -/
theorem build_line_chunk_inv (lines : List PyStr) (s e : Nat) (c : Chunk)
    (he : e ≤ lines.length) (h : build_line_chunk lines s e = some c) :
    ChunkInv lines c := by
  simp only [build_line_chunk] at h
  split at h
  · exact absurd h (by simp)
  case isFalse hgt =>
    split at h
    · exact absurd h (by simp)
    case isFalse hinf =>
      have hc := Option.some.inj h
      subst hc
      rw [trim_noise_snd, trim_noise_fst] at hgt
      have hb : trimBack lines (trimFront lines s e) e ≤ e :=
        trimBackFuel_le lines _ _ _
      refine ⟨?_, ?_, ?_, ?_, ?_, ?_⟩
      · exact (by simpa using hinf)
      · show 1 ≤ (trim_noise_line_edges lines s e).1 + 1
        omega
      · show (trim_noise_line_edges lines s e).1 + 1 ≤ (trim_noise_line_edges lines s e).2
        rw [trim_noise_fst, trim_noise_snd]
        omega
      · show (trim_noise_line_edges lines s e).2 ≤ lines.length
        rw [trim_noise_snd]
        omega
      · rfl
      · intro hempty
        have h2 : is_informative_text ([] : PyStr) = true := by
          rw [← hempty]
          exact (by simpa using hinf)
        rw [informative_nil] at h2
        exact absurd h2 (by simp)

/-- Every chunk the window splitter emits from a range ending by
`lines.length` satisfies the output invariant. -/
theorem splitFuel_inv (lines : List PyStr) (maxChars overlap e : Nat)
    (he : e ≤ lines.length) :
    ∀ fuel i c, c ∈ splitFuel lines maxChars overlap e fuel i →
      ChunkInv lines c := by
  intro fuel
  induction fuel with
  | zero => intro i c hc; exact absurd hc (by simp [splitFuel])
  | succ n ih =>
      intro i c hc
      by_cases hlt : i < e
      · rw [splitFuel_step lines maxChars overlap e n i hlt] at hc
        cases hbc : build_line_chunk lines i (windowStep lines maxChars i e) with
        | none =>
            rw [hbc] at hc
            exact ih _ c hc
        | some c0 =>
            rw [hbc] at hc
            rcases List.mem_cons.mp hc with hc | hc
            · subst hc
              exact build_line_chunk_inv lines i (windowStep lines maxChars i e) c
                (Nat.le_trans (windowStep_le lines maxChars i e hlt) he) hbc
            · exact ih _ c hc
      · have : splitFuel lines maxChars overlap e (n + 1) i = [] := by
          show (if i < e then _ else _) = _
          rw [if_neg hlt]
        rw [this] at hc
        exact absurd hc (by simp)

/-- `split_by_window` version of the invariant. -/
theorem split_by_window_inv (lines : List PyStr) (maxChars overlap i e : Nat)
    (he : e ≤ lines.length) (c : Chunk)
    (hc : c ∈ split_by_window lines maxChars overlap i e) : ChunkInv lines c :=
  splitFuel_inv lines maxChars overlap e he (e - i) i c hc

/-- Every range the merge loop outputs ends at the end of one of its
input ranges. -/
theorem mergeLoop_ends (lines : List PyStr) (maxChars n : Nat) :
    ∀ (rs : List (Nat × Nat)) (cur : Nat × Nat), cur.2 ≤ n →
      (∀ r ∈ rs, r.2 ≤ n) →
      ∀ r ∈ mergeLoop lines maxChars cur rs, r.2 ≤ n := by
  intro rs
  induction rs with
  | nil =>
      intro cur hcur _ r hr
      simp only [mergeLoop, List.mem_singleton] at hr
      subst hr
      exact hcur
  | cons se rest ih =>
      intro cur hcur hrs r hr
      simp only [mergeLoop] at hr
      split at hr
      · exact ih (cur.1, se.2) (hrs se (List.mem_cons_self se rest))
          (fun r2 hr2 => hrs r2 (List.mem_cons_of_mem se hr2)) r hr
      · rcases List.mem_cons.mp hr with hr | hr
        · subst hr; exact hcur
        · exact ih se (hrs se (List.mem_cons_self se rest))
            (fun r2 hr2 => hrs r2 (List.mem_cons_of_mem se hr2)) r hr

/-- Every clamped node line range ends by `numLines`. -/
theorem nodeLineRanges_ends (lineStarts : List Nat) (numLines : Nat)
    (nodes : List (Nat × Nat)) :
    ∀ r ∈ nodeLineRanges lineStarts numLines nodes, r.2 ≤ numLines := by
  intro r hr
  simp only [nodeLineRanges, List.mem_filterMap] at hr
  rcases hr with ⟨sb, _, hsb⟩
  split at hsb
  · rcases Option.some.inj hsb with rfl
    exact Nat.min_le_left _ _
  · exact absurd hsb (by simp)

/-- Every chunk emitted from the merged ranges satisfies the output
invariant, provided every range ends by `lines.length`. -/
theorem chunksFromMerged_inv (lines : List PyStr) (maxChars overlap : Nat) :
    ∀ (ranges : List (Nat × Nat)), (∀ r ∈ ranges, r.2 ≤ lines.length) →
      ∀ c ∈ chunksFromMerged lines maxChars overlap ranges, ChunkInv lines c := by
  intro ranges
  induction ranges with
  | nil => intro _ c hc; exact absurd hc (by simp [chunksFromMerged])
  | cons se rest ih =>
      intro hr c hc
      simp only [chunksFromMerged, List.mem_append] at hc
      have hse : se.2 ≤ lines.length := hr se (List.mem_cons_self se rest)
      have htrim : (trim_noise_line_edges lines se.1 se.2).2 ≤ lines.length := by
        rw [trim_noise_snd]
        exact Nat.le_trans (trimBackFuel_le lines _ _ _) hse
      rcases hc with hc | hc
      · split at hc
        · exact absurd hc (by simp)
        · split at hc
          · cases hbc : build_line_chunk lines (trim_noise_line_edges lines se.1 se.2).1
                (trim_noise_line_edges lines se.1 se.2).2 with
            | none => rw [hbc] at hc; exact absurd hc (by simp)
            | some c0 =>
                rw [hbc] at hc
                rcases List.mem_singleton.mp hc with rfl
                exact build_line_chunk_inv lines _ _ _ htrim hbc
          · exact split_by_window_inv lines maxChars overlap _ _ htrim c hc
      · exact ih (fun r2 hr2 => hr r2 (List.mem_cons_of_mem se hr2)) c hc

/-- C6: every chunk returned by `chunk_source_code` — for any lines, any
budget, any overlap, any tree-sitter outcome and any line-start table —
passes the informativeness filter, has a 1-based line range
`1 ≤ start_line ≤ end_line ≤ numberOfLines`, and its content is exactly
the whitespace-stripped join of lines `start_line..end_line` and is
nonempty. -/
theorem c6_chunk_output_invariant (lines : List PyStr) (maxChars overlap : Nat)
    (parsed : Option (List (Nat × Nat))) (lineStarts : List Nat) (c : Chunk)
    (hc : c ∈ chunk_source_code_lines lines maxChars overlap parsed lineStarts) :
    is_informative_text c.content = true ∧
    1 ≤ c.start_line ∧ c.start_line ≤ c.end_line ∧ c.end_line ≤ lines.length ∧
    c.content = pyStrip (joinNL
      ((lines.drop (c.start_line - 1)).take (c.end_line - (c.start_line - 1)))) ∧
    c.content ≠ [] := by
  have key : ChunkInv lines c := by
    rcases parsed with _ | nodes
    · have hts : chunk_source_code_lines lines maxChars overlap none lineStarts =
          (split_by_window lines maxChars overlap 0 lines.length).filter
            (fun c2 => !(pyStrip c2.content).isEmpty) := rfl
      rw [hts] at hc
      exact split_by_window_inv lines maxChars overlap 0 lines.length (Nat.le_refl _) c
        (List.mem_of_mem_filter hc)
    · by_cases hlen : 0 < lines.length
      · cases hnr : nodeLineRanges lineStarts lines.length nodes with
        | nil =>
            simp only [chunk_source_code_lines, hnr, if_pos hlen, List.isEmpty_nil,
              if_true] at hc
            exact split_by_window_inv lines maxChars overlap 0 lines.length
              (Nat.le_refl _) c (List.mem_of_mem_filter hc)
        | cons r rs =>
            simp only [chunk_source_code_lines, hnr, if_pos hlen] at hc
            have hc2 := List.mem_of_mem_filter hc
            have hends := nodeLineRanges_ends lineStarts lines.length nodes
            rw [hnr] at hends
            have hmerged : ∀ c2 ∈ chunksFromMerged lines maxChars overlap
                (mergeLoop lines maxChars r rs), ChunkInv lines c2 :=
              chunksFromMerged_inv lines maxChars overlap _
                (mergeLoop_ends lines maxChars lines.length rs r
                  (hends r (List.mem_cons_self r rs))
                  (fun r2 hr2 => hends r2 (List.mem_cons_of_mem r hr2)))
            split at hc2
            · exact split_by_window_inv lines maxChars overlap 0 lines.length
                (Nat.le_refl _) c hc2
            · exact hmerged c hc2
      · have hlen0 : lines = [] := List.length_eq_zero.mp (by omega)
        subst hlen0
        have hts : chunk_source_code_lines [] maxChars overlap (some nodes) lineStarts =
            (split_by_window [] maxChars overlap 0 0).filter
              (fun c2 => !(pyStrip c2.content).isEmpty) := rfl
        rw [hts] at hc
        exact split_by_window_inv [] maxChars overlap 0 0 (Nat.le_refl _) c
          (List.mem_of_mem_filter hc)
  exact key

/-- A 45-letter line used by concrete witnesses. -/
def sampleLine : PyStr := "abcdefghijklmnopqrstuvwxyzabcdefghijklmnopqrs".toList

/-- C6 witness: a one-line file whose single emitted chunk satisfies the
invariant. -/
theorem c6_chunk_output_invariant_witness :
    is_informative_text (Chunk.mk sampleLine 1 1).content = true ∧
    1 ≤ (Chunk.mk sampleLine 1 1).start_line ∧
    (Chunk.mk sampleLine 1 1).start_line ≤ (Chunk.mk sampleLine 1 1).end_line ∧
    (Chunk.mk sampleLine 1 1).end_line ≤ [sampleLine].length ∧
    (Chunk.mk sampleLine 1 1).content = pyStrip (joinNL
      (([sampleLine].drop ((Chunk.mk sampleLine 1 1).start_line - 1)).take
        ((Chunk.mk sampleLine 1 1).end_line - ((Chunk.mk sampleLine 1 1).start_line - 1)))) ∧
    (Chunk.mk sampleLine 1 1).content ≠ [] :=
  c6_chunk_output_invariant [sampleLine] 10000 200 none [0]
    (Chunk.mk sampleLine 1 1) (by decide)

/-- C10: the empty line is not noise (the regex needs at least one
character), so noise-edge trimming never removes a blank edge line —
neither at the front nor at the back of a range — and consequently an
emitted chunk's line range may point at a blank line: for the two-line
file whose first line is blank, the emitted chunk spans lines 1–2 with
line 1 blank. -/
theorem c10_blank_lines_survive_trim :
    is_noise_only_line [] = false ∧
    (∀ lines s e, s < e → lines.getD s [] = [] →
      (trim_noise_line_edges lines s e).1 = s) ∧
    (∀ lines s e, s < e → lines.getD (e - 1) [] = [] →
      (trim_noise_line_edges lines s e).2 = e) ∧
    chunk_source_code_lines [[], sampleLine] 10000 200 none [0] =
      [⟨sampleLine, 1, 2⟩] ∧
    [[], sampleLine].getD 0 [] = ([] : PyStr) := by
  refine ⟨by decide, ?_, ?_, by decide, by decide⟩
  · intro lines s e hse hblank
    rw [trim_noise_fst]
    show trimFrontFuel lines (e - s) s e = s
    obtain ⟨n, hn⟩ : ∃ n, e - s = n + 1 := ⟨e - s - 1, by omega⟩
    rw [hn]
    show (if s < e ∧ is_noise_only_line (lines.getD s []) then
      trimFrontFuel lines n (s + 1) e else s) = s
    rw [hblank]
    simp [is_noise_only_line]
  · intro lines s e hse hblank
    rw [trim_noise_snd]
    show trimBackFuel lines (e - trimFront lines s e) (trimFront lines s e) e = e
    cases hn : e - trimFront lines s e with
    | zero => rfl
    | succ n =>
        show (if trimFront lines s e < e ∧
          is_noise_only_line (lines.getD (e - 1) []) then
          trimBackFuel lines n (trimFront lines s e) (e - 1) else e) = e
        rw [hblank]
        simp [is_noise_only_line]

/-- C10 witness: the trimming parts of the theorem at concrete blank-edged
ranges. -/
theorem c10_blank_lines_survive_trim_witness :
    is_noise_only_line [] = false ∧
    (trim_noise_line_edges [[], sampleLine] 0 2).1 = 0 ∧
    (trim_noise_line_edges [sampleLine, []] 0 2).2 = 2 :=
  ⟨c10_blank_lines_survive_trim.1,
   c10_blank_lines_survive_trim.2.1 [[], sampleLine] 0 2 (by decide) (by decide),
   c10_blank_lines_survive_trim.2.2.1 [sampleLine, []] 0 2 (by decide) (by decide)⟩

/-! ## Claims about the ingestion worker -/

set_option maxRecDepth 100000

/-- An `embedding` progress update. -/
def embProgressP (ev : WEv) : Bool :=
  ev.phase == "embedding" && ev.event == some "progress"

/-- An `indexing` progress update. -/
def idxProgressP (ev : WEv) : Bool :=
  ev.phase == "indexing" && ev.event == some "progress"

/-- Counting over a map whose image never satisfies the predicate. -/
theorem countP_map_zero (p : WEv → Bool) (f : String → WEv) (l : List String)
    (h : ∀ a, p (f a) = false) : (l.map f).countP p = 0 := by
  induction l with
  | nil => rfl
  | cons x xs ih => simp [List.countP_cons, h, ih]

/-- C5 counterexample: a run over 102 one-chunk batches processes 102
batches but emits only 101 embedding progress updates and 101 indexing
progress updates — the batch whose integer percentage repeats the
previous one emits nothing (`if emb_pct != last_emb_pct`). -/
theorem c5_per_batch_progress_counterexample :
    (index_repo_run (List.replicate 102 ⟨"f", ['a']⟩) 1
      (fun _ => none) (fun _ => none)).2.1.length = 102 ∧
    (index_repo_run (List.replicate 102 ⟨"f", ['a']⟩) 1
      (fun _ => none) (fun _ => none)).1.countP embProgressP = 101 ∧
    (index_repo_run (List.replicate 102 ⟨"f", ['a']⟩) 1
      (fun _ => none) (fun _ => none)).1.countP idxProgressP = 101 := by
  decide

/-- The `embedding` progress event of a batch. -/
def embProgressEv (p t pct : Nat) : WEv :=
  ⟨"embedding", some "progress", some p, some t, some pct, none, none, none⟩

/-- The `indexing` progress event of a batch. -/
def idxProgressEv (p t pct : Nat) : WEv :=
  ⟨"indexing", some "progress", some p, some t, some pct, none, none, none⟩

/-- A `file_indexed` event. -/
def fileIndexedEv (rel : String) : WEv :=
  ⟨"indexing", some "file_indexed", none, none, none, some rel, none, none⟩

/-- The event list of one successfully processed batch. -/
theorem processBatch_events (total : Nat)
    (embedFail writeFail : Nat → Option String) (start : Nat)
    (batch : List WChunk) (st : WBState)
    (hne : (docsOf batch).isEmpty = false)
    (hef : embedFail start = none) (hwf : writeFail start = none) :
    (processBatch total embedFail writeFail start batch st).1 =
      (if st.lastEmbPct =
          some ((st.embedDone + (docsOf batch).length) * 100 / max 1 total)
        then []
        else [embProgressEv (st.embedDone + (docsOf batch).length) total
          ((st.embedDone + (docsOf batch).length) * 100 / max 1 total)]) ++
      ((sortStrs (collectNew st.sent (docsOf batch)).2).map fileIndexedEv) ++
      (if st.lastIdxPct =
          some ((st.indexDone + (docsOf batch).length) * 100 / max 1 total)
        then []
        else [idxProgressEv (st.indexDone + (docsOf batch).length) total
          ((st.indexDone + (docsOf batch).length) * 100 / max 1 total)]) := by
  simp only [processBatch, hne, Bool.false_eq_true, if_false, hef, hwf]
  rfl

/-- A successfully processed batch raises no exception. -/
theorem processBatch_no_error (total : Nat)
    (embedFail writeFail : Nat → Option String) (start : Nat)
    (batch : List WChunk) (st : WBState)
    (hne : (docsOf batch).isEmpty = false)
    (hef : embedFail start = none) (hwf : writeFail start = none) :
    (processBatch total embedFail writeFail start batch st).2.2 = none := by
  simp only [processBatch, hne, Bool.false_eq_true, if_false, hef, hwf]

/-- C5 amended: in a successfully processed batch (nonempty documents,
no collaborator failure), the worker emits *at most* one `embedding`
progress update and at most one `indexing` progress update — exactly one
each precisely when the integer percentage differs from the last emitted
one — and every such update carries the cumulative processed count and
the total count. -/
theorem c5_progress_update_per_batch (total : Nat)
    (embedFail writeFail : Nat → Option String) (start : Nat)
    (batch : List WChunk) (st : WBState)
    (hne : (docsOf batch).isEmpty = false)
    (hef : embedFail start = none) (hwf : writeFail start = none) :
    (processBatch total embedFail writeFail start batch st).2.2 = none ∧
    (processBatch total embedFail writeFail start batch st).1.countP embProgressP =
      (if st.lastEmbPct =
          some ((st.embedDone + (docsOf batch).length) * 100 / max 1 total)
        then 0 else 1) ∧
    (processBatch total embedFail writeFail start batch st).1.countP idxProgressP =
      (if st.lastIdxPct =
          some ((st.indexDone + (docsOf batch).length) * 100 / max 1 total)
        then 0 else 1) ∧
    (∀ ev ∈ (processBatch total embedFail writeFail start batch st).1,
      embProgressP ev = true →
        ev.processed = some (st.embedDone + (docsOf batch).length) ∧
        ev.total = some total) ∧
    (∀ ev ∈ (processBatch total embedFail writeFail start batch st).1,
      idxProgressP ev = true →
        ev.processed = some (st.indexDone + (docsOf batch).length) ∧
        ev.total = some total) := by
  have hfe : ∀ rel : String, embProgressP (fileIndexedEv rel) = false := fun _ => rfl
  have hfi : ∀ rel : String, idxProgressP (fileIndexedEv rel) = false := fun _ => rfl
  have hev := processBatch_events total embedFail writeFail start batch st hne hef hwf
  refine ⟨processBatch_no_error total embedFail writeFail start batch st hne hef hwf,
    ?_, ?_, ?_, ?_⟩
  · rw [hev, List.countP_append, List.countP_append,
      countP_map_zero embProgressP fileIndexedEv _ hfe]
    by_cases hemb : st.lastEmbPct =
        some ((st.embedDone + (docsOf batch).length) * 100 / max 1 total) <;>
      by_cases hidx : st.lastIdxPct =
          some ((st.indexDone + (docsOf batch).length) * 100 / max 1 total) <;>
        simp [hemb, hidx, List.countP_cons, embProgressP, embProgressEv, idxProgressEv]
  · rw [hev, List.countP_append, List.countP_append,
      countP_map_zero idxProgressP fileIndexedEv _ hfi]
    by_cases hemb : st.lastEmbPct =
        some ((st.embedDone + (docsOf batch).length) * 100 / max 1 total) <;>
      by_cases hidx : st.lastIdxPct =
          some ((st.indexDone + (docsOf batch).length) * 100 / max 1 total) <;>
        simp [hemb, hidx, List.countP_cons, idxProgressP, embProgressEv, idxProgressEv]
  · intro ev hevm hp
    rw [hev] at hevm
    rcases List.mem_append.mp hevm with h | h
    · rcases List.mem_append.mp h with h | h
      · split at h
        · exact absurd h (by simp)
        · rcases List.mem_singleton.mp h with rfl
          exact ⟨rfl, rfl⟩
      · rcases List.mem_map.mp h with ⟨rel, _, rfl⟩
        exact absurd hp (by simp [hfe rel])
    · split at h
      · exact absurd h (by simp)
      · rcases List.mem_singleton.mp h with rfl
        exact absurd hp (by simp [embProgressP, idxProgressEv])
  · intro ev hevm hp
    rw [hev] at hevm
    rcases List.mem_append.mp hevm with h | h
    · rcases List.mem_append.mp h with h | h
      · split at h
        · exact absurd h (by simp)
        · rcases List.mem_singleton.mp h with rfl
          exact absurd hp (by simp [idxProgressP, embProgressEv])
      · rcases List.mem_map.mp h with ⟨rel, _, rfl⟩
        exact absurd hp (by simp [hfi rel])
    · split at h
      · exact absurd h (by simp)
      · rcases List.mem_singleton.mp h with rfl
        exact ⟨rfl, rfl⟩

/-- C5 witness: the amended claim at a concrete batch. -/
theorem c5_progress_update_per_batch_witness :
    (processBatch 2 (fun _ => none) (fun _ => none) 0
      [⟨"f", ['a']⟩] ({} : WBState)).2.2 = none ∧
    (processBatch 2 (fun _ => none) (fun _ => none) 0
      [⟨"f", ['a']⟩] ({} : WBState)).1.countP embProgressP =
      (if ({} : WBState).lastEmbPct =
          some ((({} : WBState).embedDone + (docsOf [⟨"f", ['a']⟩]).length) * 100 / max 1 2)
        then 0 else 1) ∧
    (processBatch 2 (fun _ => none) (fun _ => none) 0
      [⟨"f", ['a']⟩] ({} : WBState)).1.countP idxProgressP =
      (if ({} : WBState).lastIdxPct =
          some ((({} : WBState).indexDone + (docsOf [⟨"f", ['a']⟩]).length) * 100 / max 1 2)
        then 0 else 1) ∧
    (∀ ev ∈ (processBatch 2 (fun _ => none) (fun _ => none) 0
        [⟨"f", ['a']⟩] ({} : WBState)).1,
      embProgressP ev = true →
        ev.processed = some (({} : WBState).embedDone + (docsOf [⟨"f", ['a']⟩]).length) ∧
        ev.total = some 2) ∧
    (∀ ev ∈ (processBatch 2 (fun _ => none) (fun _ => none) 0
        [⟨"f", ['a']⟩] ({} : WBState)).1,
      idxProgressP ev = true →
        ev.processed = some (({} : WBState).indexDone + (docsOf [⟨"f", ['a']⟩]).length) ∧
        ev.total = some 2) :=
  c5_progress_update_per_batch 2 (fun _ => none) (fun _ => none) 0
    [⟨"f", ['a']⟩] {} (by decide) rfl rfl

/-- A batch that raised did so in the embedding call or (the embedding
call having succeeded) in the store write, and its documents were
nonempty. -/
theorem processBatch_error (total : Nat) (embedFail writeFail : Nat → Option String)
    (start : Nat) (batch : List WChunk) (st : WBState) (m : String)
    (h : (processBatch total embedFail writeFail start batch st).2.2 = some m) :
    (docsOf batch).isEmpty = false ∧
    (embedFail start = some m ∨ (embedFail start = none ∧ writeFail start = some m)) := by
  by_cases hne : (docsOf batch).isEmpty
  · exact absurd h (by simp [processBatch, hne])
  · refine ⟨by simpa using hne, ?_⟩
    cases hef : embedFail start with
    | some m2 =>
        have h2 : some m2 = some m := by
          simpa [processBatch, hne, hef] using h
        exact Or.inl h2
    | none =>
        cases hwf : writeFail start with
        | some m2 =>
            have h2 : some m2 = some m := by
              simpa [processBatch, hne, hef, hwf] using h
            exact Or.inr ⟨rfl, h2⟩
        | none =>
            exact absurd h (by simp [processBatch, hne, hef, hwf])

/-- A batch that did not raise and had nonempty documents saw both
collaborator calls succeed. -/
theorem processBatch_none (total : Nat) (embedFail writeFail : Nat → Option String)
    (start : Nat) (batch : List WChunk) (st : WBState)
    (h : (processBatch total embedFail writeFail start batch st).2.2 = none)
    (hne : (docsOf batch).isEmpty = false) :
    embedFail start = none ∧ writeFail start = none := by
  cases hef : embedFail start with
  | some m2 => exact absurd h (by simp [processBatch, hne, hef])
  | none =>
      cases hwf : writeFail start with
      | some m2 => exact absurd h (by simp [processBatch, hne, hef, hwf])
      | none => exact ⟨rfl, rfl⟩

/-- The batches that reach the collaborator calls: those whose document
list is nonempty. -/
def eligibleStarts (batches : List (Nat × List WChunk)) : List Nat :=
  (batches.filter (fun b => !(docsOf b.2).isEmpty)).map (fun b => b.1)

/-- Unfolding `eligibleStarts` over the head batch. -/
theorem eligibleStarts_cons (start : Nat) (batch : List WChunk)
    (rest : List (Nat × List WChunk)) :
    eligibleStarts ((start, batch) :: rest) =
      (if (docsOf batch).isEmpty then [] else [start]) ++ eligibleStarts rest := by
  by_cases hne : (docsOf batch).isEmpty
  · simp [eligibleStarts, List.filter_cons, hne]
  · simp [eligibleStarts, List.filter_cons, hne]

/-- When the worker loop raises, the processed batches are an initial
prefix of the eligible batches, ending at the batch whose embedding or
write call failed with the raised message. -/
theorem runBatches_error (total : Nat) (ef wf : Nat → Option String) :
    ∀ (batches : List (Nat × List WChunk)) (st : WBState) (m : String),
      (runBatches total ef wf batches st).2.2.2 = some m →
      ∃ k, (runBatches total ef wf batches st).2.2.1.getLast? = some k ∧
        (ef k = some m ∨ (ef k = none ∧ wf k = some m)) ∧
        ∃ t, eligibleStarts batches = (runBatches total ef wf batches st).2.2.1 ++ t := by
  intro batches
  induction batches with
  | nil => intro st m h; exact absurd h (by simp [runBatches])
  | cons b rest ih =>
      obtain ⟨start, batch⟩ := b
      intro st m h
      cases hpe : (processBatch total ef wf start batch st).2.2 with
      | some m0 =>
          have hunf : runBatches total ef wf ((start, batch) :: rest) st =
              ((processBatch total ef wf start batch st).1,
               (processBatch total ef wf start batch st).2.1,
               (if (docsOf batch).isEmpty then [] else [start]), some m0) := by
            simp only [runBatches, hpe]
          rw [hunf] at h ⊢
          dsimp only at h ⊢
          have hm : m0 = m := by simpa using h
          rcases processBatch_error total ef wf start batch st m (by rw [hpe, hm]) with
            ⟨hne2, hfail⟩
          refine ⟨start, ?_, hfail, eligibleStarts rest, ?_⟩
          · simp [hne2]
          · rw [eligibleStarts_cons]
      | none =>
          have hunf : runBatches total ef wf ((start, batch) :: rest) st =
              ((processBatch total ef wf start batch st).1 ++
                 (runBatches total ef wf rest
                   (processBatch total ef wf start batch st).2.1).1,
               (runBatches total ef wf rest
                 (processBatch total ef wf start batch st).2.1).2.1,
               (if (docsOf batch).isEmpty then [] else [start]) ++
                 (runBatches total ef wf rest
                   (processBatch total ef wf start batch st).2.1).2.2.1,
               (runBatches total ef wf rest
                 (processBatch total ef wf start batch st).2.1).2.2.2) := by
            simp only [runBatches, hpe]
          rw [hunf] at h ⊢
          dsimp only at h ⊢
          rcases ih (processBatch total ef wf start batch st).2.1 m h with
            ⟨k, hlast, hfail, t, ht⟩
          have hpne : (runBatches total ef wf rest
              (processBatch total ef wf start batch st).2.1).2.2.1 ≠ [] := by
            intro hnil
            rw [hnil] at hlast
            simp at hlast
          refine ⟨k, ?_, hfail, t, ?_⟩
          · rw [List.getLast?_append_of_ne_nil _ hpne]
            exact hlast
          · rw [eligibleStarts_cons, ht, List.append_assoc]

/-- When the worker loop finishes without raising, both collaborator
calls of every eligible batch succeeded. -/
theorem runBatches_ok (total : Nat) (ef wf : Nat → Option String) :
    ∀ (batches : List (Nat × List WChunk)) (st : WBState),
      (runBatches total ef wf batches st).2.2.2 = none →
      ∀ b ∈ batches, (docsOf b.2).isEmpty = false → ef b.1 = none ∧ wf b.1 = none := by
  intro batches
  induction batches with
  | nil => intro st _ b hb; exact absurd hb (by simp)
  | cons b0 rest ih =>
      obtain ⟨start, batch⟩ := b0
      intro st h b hb hbne
      cases hpe : (processBatch total ef wf start batch st).2.2 with
      | some m0 =>
          have hunf : (runBatches total ef wf ((start, batch) :: rest) st).2.2.2 =
              some m0 := by
            simp only [runBatches, hpe]
          rw [hunf] at h
          exact absurd h (by simp)
      | none =>
          have hunf : (runBatches total ef wf ((start, batch) :: rest) st).2.2.2 =
              (runBatches total ef wf rest
                (processBatch total ef wf start batch st).2.1).2.2.2 := by
            simp only [runBatches, hpe]
          rw [hunf] at h
          rcases List.mem_cons.mp hb with hb | hb
          · subst hb
            exact processBatch_none total ef wf start batch st hpe hbne
          · exact ih (processBatch total ef wf start batch st).2.1 h b hb hbne

/-- C8: for a nonempty chunk list, when any embedding or vector-store
call fails during the run, the event trace is the two `start` events,
the events of the batches processed so far, and then exactly an
`embedding` `error` update and an `indexing` `error` update carrying the
failure message (plus the top-level error message); the processed batches
form an initial prefix of the eligible batches ending at the failing one
— no further batch is processed.  Conversely a run that ends without the
error tail had no failing collaborator call on any eligible batch. -/
theorem c8_failure_marks_both_phases_and_stops (chunks : List WChunk) (bs : Nat)
    (ef wf : Nat → Option String) (_hbs : 0 < bs) (hne : chunks ≠ []) :
    (∀ m, (index_repo_run chunks bs ef wf).2.2 = some m →
      ((index_repo_run chunks bs ef wf).1 =
        [⟨"embedding", some "start", some 0, some chunks.length, some 0, none, none, none⟩,
         ⟨"indexing", some "start", some 0, some chunks.length, some 0, none, none, none⟩] ++
        (runBatches chunks.length ef wf (batchesOf chunks bs) {}).1 ++
        [⟨"embedding", some "error", none, none, none, none, some m, none⟩,
         ⟨"indexing", some "error", none, none, none, none, some m, none⟩,
         ⟨"error", none, none, none, none, none, none, some m⟩]) ∧
      (∃ k, (index_repo_run chunks bs ef wf).2.1.getLast? = some k ∧
        (ef k = some m ∨ (ef k = none ∧ wf k = some m)) ∧
        ∃ t, eligibleStarts (batchesOf chunks bs) =
          (index_repo_run chunks bs ef wf).2.1 ++ t)) ∧
    ((index_repo_run chunks bs ef wf).2.2 = none →
      ∀ b ∈ batchesOf chunks bs, (docsOf b.2).isEmpty = false →
        ef b.1 = none ∧ wf b.1 = none) := by
  have hlen : ¬ chunks.length = 0 := by
    simpa using fun h => hne (List.length_eq_zero.mp h)
  have hproj2 : (index_repo_run chunks bs ef wf).2.2 =
      (runBatches chunks.length ef wf (batchesOf chunks bs) {}).2.2.2 := by
    simp only [index_repo_run, if_neg hlen]
  have hproj1 : (index_repo_run chunks bs ef wf).2.1 =
      (runBatches chunks.length ef wf (batchesOf chunks bs) {}).2.2.1 := by
    simp only [index_repo_run, if_neg hlen]
  constructor
  · intro m hm
    rw [hproj2] at hm
    constructor
    · simp only [index_repo_run, if_neg hlen, hm]
    · rcases runBatches_error chunks.length ef wf (batchesOf chunks bs) {} m hm with
        ⟨k, hlast, hfail, t, ht⟩
      refine ⟨k, ?_, hfail, t, ?_⟩
      · rw [hproj1]
        exact hlast
      · rw [hproj1]
        exact ht
  · intro hnone
    rw [hproj2] at hnone
    exact runBatches_ok chunks.length ef wf (batchesOf chunks bs) {} hnone

/-- The chunk list of the C8 witness. -/
def chunksW : List WChunk := [⟨"f", ['a']⟩, ⟨"g", ['b']⟩]

/-- The embedding-failure injection of the C8 witness: the second batch's
embedding call raises `"X"`. -/
def efW : Nat → Option String := fun k => if k = 1 then some "X" else none

/-- The write-failure injection of the C8 witness: no write fails. -/
def wfW : Nat → Option String := fun _ => none

/-- C8 witness: the theorem at a concrete failing run. -/
theorem c8_failure_marks_both_phases_and_stops_witness :
    ((index_repo_run chunksW 1 efW wfW).1 =
      [⟨"embedding", some "start", some 0, some chunksW.length, some 0, none, none, none⟩,
       ⟨"indexing", some "start", some 0, some chunksW.length, some 0, none, none, none⟩] ++
      (runBatches chunksW.length efW wfW (batchesOf chunksW 1) {}).1 ++
      [⟨"embedding", some "error", none, none, none, none, some "X", none⟩,
       ⟨"indexing", some "error", none, none, none, none, some "X", none⟩,
       ⟨"error", none, none, none, none, none, none, some "X"⟩]) ∧
    (∃ k, (index_repo_run chunksW 1 efW wfW).2.1.getLast? = some k ∧
      (efW k = some "X" ∨ (efW k = none ∧ wfW k = some "X")) ∧
      ∃ t, eligibleStarts (batchesOf chunksW 1) =
        (index_repo_run chunksW 1 efW wfW).2.1 ++ t) :=
  (c8_failure_marks_both_phases_and_stops chunksW 1 efW wfW (by decide)
    (by decide)).1 "X" (by decide)
